import Mathlib

set_option maxHeartbeats 1000000

/-! Verification development for the `hrdups` duplicate-file tool
(`src/hrdups.cpp`, which also carries a legacy variant of the program in the
same source lineage).  The build phase (size-bucketed, lazily hashed grouping),
the attribute comparator and the mutation phase are shallowly embedded below;
filesystem reads are an oracle (`FS`, `MutOracle`), machine integers are `Nat`
with explicit `% 2 ^ 64` where the C++ type is `size_t`, and C++ exceptions are
`Option String` results that propagate exactly as the uncaught exceptions do in
the source. -/

/-- File paths, as the strings the program manipulates. -/
abbrev FPath := String

/-- Read-only facts about the filesystem that the build phase consumes:
whether an input stream on the file can be opened, the byte size of an
openable file, and the SHA-256 hex digest of its content. -/
structure FS where
  canOpen : FPath → Bool
  realSize : FPath → Nat
  digest : FPath → String

/-- The value `(size_t)(-1)` on a 64-bit platform. -/
def size_t_max : Nat := 2 ^ 64 - 1

/-- Model of `fsize` (hrdups.cpp lines 20-25): opens the file and returns
`tellg()` converted to `size_t`.  When the stream cannot be opened `tellg()`
yields `pos_type(-1)`, whose `size_t` conversion is `2 ^ 64 - 1`. -/
def fsize (fs : FS) (p : FPath) : Nat :=
  if fs.canOpen p then fs.realSize p % 2 ^ 64 else size_t_max

/-- Model of `fhash` (hrdups.cpp lines 32-75): throws if the file cannot be
opened, otherwise streams the content and returns its SHA-256 hex digest. -/
def fhash (fs : FS) (p : FPath) : Except String String :=
  if fs.canOpen p then Except.ok (fs.digest p)
  else Except.error ("Cannot open " ++ p)

/-- Association-list lookup, the model of `std::map` access by key. -/
def alookup {α β : Type} [DecidableEq α] : List (α × β) → α → Option β
  | [], _ => none
  | (k, v) :: rest, a => if k = a then some v else alookup rest a

/-- Association-list update: replace the binding of the key if present,
append a new binding otherwise (the effect of `std::map::operator[]` plus
assignment, up to the key ordering of `std::map`, which no claim depends
on). -/
def aset {α β : Type} [DecidableEq α] : List (α × β) → α → β → List (α × β)
  | [], a, b => [(a, b)]
  | (k, v) :: rest, a, b =>
    if k = a then (a, b) :: rest else (k, v) :: aset rest a b

/-- One size bucket of `traverse_map_t`: hex-digest key (or the empty string,
the unhashed sentinel) to the ordered list of file paths. -/
abbrev Bucket := List (String × List FPath)

/-- `traverse_map_t` (hrdups.cpp line 15): file size to size bucket. -/
abbrev TMap := List (Nat × Bucket)

/-- State of the build phase: the size/hash map under construction plus, for
the lazy-hash accounting, the paths whose content digest has actually been
computed by `fhash`, in computation order. -/
structure BuildSt where
  map : TMap
  hashed : List FPath
deriving DecidableEq, Repr

/-- The `count == 1` branch of `traverse` (hrdups.cpp lines 111-116): when the
size bucket holds exactly one key, its file list is moved out, the bucket is
cleared, and the list is re-inserted under the freshly computed digest of its
first file.  The branch fires on the key count alone, whether or not that
single key is the unhashed sentinel.  Returns the new bucket, the paths whose
digest was computed, and the exception of `fhash` if it threw (the bucket is
already cleared at that point).  On buckets with zero or at least two keys it
is the identity, mirroring that the C++ branch is not taken.  The inner `[]`
file list case is unreachable (every list stored in the map is nonempty). -/
def rekeyed (fs : FS) : Bucket → Bucket × List FPath × Option String
  | [(_, names)] =>
    match names.head? with
    | none => ([], [], none)
    | some n0 =>
      match fhash fs n0 with
      | Except.ok d => ([(d, names)], [n0], none)
      | Except.error e => ([], [], some e)
  | b => (b, [], none)

/-- `same_size_map[fhash(entry_path)].emplace_back(...)` (hrdups.cpp
line 117): hash the current file and append it to the list under its digest,
or propagate the exception of `fhash` leaving the bucket unchanged. -/
def insertHashed (fs : FS) (b : Bucket) (p : FPath) :
    Bucket × List FPath × Option String :=
  match fhash fs p with
  | Except.ok d => (aset b d (((alookup b d).getD []) ++ [p]), [p], none)
  | Except.error e => (b, [], some e)

/-- The body of `traverse` for one regular, non-symlink file entry
(hrdups.cpp lines 101-119): compute the size, discard size-0 files,
then insert into the size bucket — unhashed sentinel for the first file of a
bucket, lazy rekeying plus hashed insertion afterwards. -/
def processFile (fs : FS) (st : BuildSt) (p : FPath) : BuildSt × Option String :=
  if fsize fs p = 0 then (st, none)
  else
    match (alookup st.map (fsize fs p)).getD [] with
    | [] => ({ st with map := aset st.map (fsize fs p) [("", [p])] }, none)
    | b :: bs =>
      match rekeyed fs (b :: bs) with
      | (b1, h1, none) =>
        match insertHashed fs b1 p with
        | (b2, h2, e2) =>
          ({ map := aset st.map (fsize fs p) b2,
             hashed := st.hashed ++ (h1 ++ h2) }, e2)
      | (b1, h1, some e) =>
        ({ map := aset st.map (fsize fs p) b1,
           hashed := st.hashed ++ h1 }, some e)

/-- One step of the depth-first walk a `traverse(root, map)` call performs,
in its left-to-right linearisation: `file p` is the processing of a regular
non-symlink file entry; `fail msg` is a failure to open or stat a subtree
entry (`directory_iterator` throwing).  Symlinks and non-regular entries
contribute no step.  `traverse` installs no handler, so an exception thrown
anywhere inside the recursion propagates out of the whole call — hence a
`fail` step, like a failing `fhash`, ends the walk. -/
inductive Ev where
  | file (p : FPath)
  | fail (msg : String)
deriving DecidableEq, Repr

/-- Model of one `traverse(root, map)` call (hrdups.cpp lines 94-123) over the
event sequence of its walk: files are folded into the map until the first
exception, which propagates to the caller together with the partially built
state (the C++ map is passed by reference, so mutations before the throw
persist). -/
def traverse (fs : FS) : List Ev → BuildSt → BuildSt × Option String
  | [], st => (st, none)
  | Ev.file p :: rest, st =>
    match processFile fs st p with
    | (st', none) => traverse fs rest st'
    | (st', some e) => (st', some e)
  | Ev.fail msg :: _, st => (st, some msg)

/-- The build phase of `main` (hrdups.cpp lines 165-173): one `try` block
wraps the whole loop over the root paths, so the first exception from any
`traverse` call stops the loop; the exception is caught once, a warning is
printed, and execution falls through to the mutation phase with the map built
so far. -/
def buildPhase (fs : FS) : List (List Ev) → BuildSt → BuildSt × Option String
  | [], st => (st, none)
  | root :: rest, st =>
    match traverse fs root st with
    | (st', none) => buildPhase fs rest st'
    | (st', some e) => (st', some e)

/-- The initial build state: the empty map. -/
def initSt : BuildSt := { map := [], hashed := [] }

/-- The regular-file paths a walk yields, in discovery order. -/
def filesOfEvs (evs : List Ev) : List FPath :=
  evs.filterMap (fun e => match e with | Ev.file p => some p | Ev.fail _ => none)

/-- The regular-file paths of all roots, in discovery order. -/
def filesOfRoots (roots : List (List Ev)) : List FPath :=
  (roots.map filesOfEvs).flatten

/-- A walk is clean when no subtree entry fails and every discovered file can
be opened (so no `fhash` call can throw). -/
def cleanEvs (fs : FS) (evs : List Ev) : Bool :=
  evs.all (fun e => match e with | Ev.file p => fs.canOpen p | Ev.fail _ => false)

/-- All roots are clean. -/
def cleanRoots (fs : FS) (roots : List (List Ev)) : Bool :=
  roots.all (cleanEvs fs)

/-- The `struct stat` fields that `compare_file_attributes` reads: owner id,
group id, mode bits and containing device. -/
structure FileAttrs where
  uid : Nat
  gid : Nat
  mode : Nat
  dev : Nat
deriving DecidableEq, Repr

/-- Read and mutation oracles for the mutation phase of `main`: `stat`
(`none` when the call fails), whether each mutating call succeeds, and the
directory facts the pruning code reads.  `dirEmptyAfter d` is whether
directory `d` holds zero entries at the moment the pruning code lists it,
i.e. right after the duplicate inside it was deleted. -/
structure MutOracle where
  stat : FPath → Option FileAttrs
  removeOk : FPath → Bool
  linkOk : FPath → FPath → Bool
  rmdirOk : FPath → Bool
  parent : FPath → FPath
  isDirectory : FPath → Bool
  dirEmptyAfter : FPath → Bool

/-- Model of `compare_file_attributes` (hrdups.cpp lines 83-89): `stat` both
paths; any failure yields `false`, otherwise compare owner, group, mode and
device for equality. -/
def compare_file_attributes (o : MutOracle) (a b : FPath) : Bool :=
  match o.stat a, o.stat b with
  | some s1, some s2 =>
    decide (s1.uid = s2.uid) && decide (s1.gid = s2.gid) &&
    decide (s1.mode = s2.mode) && decide (s1.dev = s2.dev)
  | _, _ => false

/-- The command-line configuration that reaches the mutation phase. -/
structure Config where
  keep : Bool
  pretend : Bool
  remove : Bool
deriving DecidableEq, Repr

/-- One filesystem mutation the mutation phase performs: `std::remove` of a
file, `create_hard_link(target, link)`, `chown`, `chmod`, and `std::remove`
of a directory. -/
inductive FsAct where
  | removeFile (p : FPath)
  | createLink (target link : FPath)
  | chown (p : FPath) (uid gid : Nat)
  | chmod (p : FPath) (mode : Nat)
  | removeDir (d : FPath)
deriving DecidableEq, Repr

/-- One line of mutation-phase output: the group banner with its base, a
group member, the owner/mode mismatch line, the empty-directory-removed
line. -/
inductive Report where
  | group (base : FPath)
  | member (p : FPath)
  | mismatch (base file : FPath)
  | emptyDirRemoved (d : FPath)
deriving DecidableEq, Repr

/-- Outcome of a stretch of the mutation phase: mutations performed in
order, lines printed, bytes accounted as saved, and the uncaught exception
if one was thrown (everything before it stays committed — the code attempts
no undo). -/
structure PairOut where
  acts : List FsAct
  reps : List Report
  savedAdd : Nat
  err : Option String
deriving DecidableEq, Repr

/-- The body of the inner mutation loop for one duplicate pair (hrdups.cpp
lines 193-251), with `s` the size key of the group, `base` its first member
and `file` the current duplicate: print the member line; gate on
`compare_file_attributes` (mismatch is reported and nothing is touched);
in pretend mode mutate nothing; otherwise delete the duplicate (failure
throws), then either prune the now-empty parent directory (remove mode
without keep; rmdir failure throws) or recreate the path as a hardlink to
the base (failure throws) and reapply the base's owner/group/mode to it when
the base can still be statted.  `saved += size` runs exactly when no
exception was thrown on a matched pair. -/
def processPair (cfg : Config) (o : MutOracle) (s : Nat) (base file : FPath) :
    PairOut :=
  if compare_file_attributes o base file then
    if cfg.pretend then ⟨[], [Report.member file], s, none⟩
    else if o.removeOk file then
      if cfg.remove then
        if cfg.keep then ⟨[FsAct.removeFile file], [Report.member file], s, none⟩
        else
          let dir := o.parent file
          if o.isDirectory dir then
            if o.dirEmptyAfter dir then
              if o.rmdirOk dir then
                ⟨[FsAct.removeFile file, FsAct.removeDir dir],
                 [Report.member file, Report.emptyDirRemoved dir], s, none⟩
              else
                ⟨[FsAct.removeFile file], [Report.member file], 0,
                 some ("Cannot delete empty directory " ++ dir)⟩
            else ⟨[FsAct.removeFile file], [Report.member file], s, none⟩
          else ⟨[FsAct.removeFile file], [Report.member file], s, none⟩
      else
        if o.linkOk base file then
          match o.stat base with
          | some bs =>
            ⟨[FsAct.removeFile file, FsAct.createLink base file,
              FsAct.chown file bs.uid bs.gid, FsAct.chmod file bs.mode],
             [Report.member file], s, none⟩
          | none =>
            ⟨[FsAct.removeFile file, FsAct.createLink base file],
             [Report.member file], s, none⟩
        else
          ⟨[FsAct.removeFile file], [Report.member file], 0,
           some ("Cannot create hardlink for " ++ base ++ " as " ++ file)⟩
    else
      ⟨[], [Report.member file], 0, some ("Cannot delete file " ++ file)⟩
  else ⟨[], [Report.member file, Report.mismatch base file], 0, none⟩

/-- The inner mutation loop over the duplicates of one group (members with
index 1 and up): pairs are processed in order until the first exception,
which propagates with everything already committed. -/
def runPairs (cfg : Config) (o : MutOracle) (s : Nat) (base : FPath) :
    List FPath → PairOut
  | [] => ⟨[], [], 0, none⟩
  | f :: rest =>
    let x := processPair cfg o s base f
    match x.err with
    | some e => ⟨x.acts, x.reps, x.savedAdd, some e⟩
    | none =>
      let y := runPairs cfg o s base rest
      ⟨x.acts ++ y.acts, x.reps ++ y.reps, x.savedAdd + y.savedAdd, y.err⟩

/-- One group of the mutation phase (hrdups.cpp lines 179-253): groups with
fewer than two members are skipped; otherwise the first member is the base,
the group banner is printed and the remaining members are processed. -/
def runGroup (cfg : Config) (o : MutOracle) (g : Nat × List FPath) : PairOut :=
  match g.2 with
  | b :: f :: rest =>
    let x := runPairs cfg o g.1 b (f :: rest)
    ⟨x.acts, Report.group b :: x.reps, x.savedAdd, x.err⟩
  | _ => ⟨[], [], 0, none⟩

/-- The whole mutation phase over the group list: groups run in order until
the first exception, which is uncaught and ends the run. -/
def runGroups (cfg : Config) (o : MutOracle) : List (Nat × List FPath) → PairOut
  | [] => ⟨[], [], 0, none⟩
  | g :: rest =>
    let x := runGroup cfg o g
    match x.err with
    | some e => ⟨x.acts, x.reps, x.savedAdd, some e⟩
    | none =>
      let y := runGroups cfg o rest
      ⟨x.acts ++ y.acts, x.reps ++ y.reps, x.savedAdd + y.savedAdd, y.err⟩

/-- The group list the mutation loop iterates: every `(size, file list)`
entry of the built map, over all digests of all size buckets. -/
def flattenMap (m : TMap) : List (Nat × List FPath) :=
  (m.map (fun sb => sb.2.map (fun hn => (sb.1, hn.2)))).flatten

/-- The observable outcome of one whole run of the program. -/
structure RunResult where
  map : TMap
  warned : Bool
  saved : Nat
  actions : List FsAct
  reports : List Report
  fatal : Option String
  exitCode : Nat
deriving DecidableEq, Repr

/-- Model of `main` after argument parsing (hrdups.cpp lines 163-258): the
build phase over the root paths with its single catch-and-warn handler, then
the mutation phase over the finished map.  A mutation-phase exception is
uncaught, terminating the process with a non-zero status; otherwise the
summary is printed and `main` returns 0 — also when the build phase only
warned. -/
def runMain (fs : FS) (cfg : Config) (roots : List (List Ev)) (o : MutOracle) :
    RunResult :=
  let b := buildPhase fs roots initSt
  let x := runGroups cfg o (flattenMap b.1.map)
  { map := b.1.map, warned := b.2.isSome, saved := x.savedAdd,
    actions := x.acts, reports := x.reps, fatal := x.err,
    exitCode := if x.err.isSome then 1 else 0 }

theorem alookup_aset_self {α β : Type} [DecidableEq α]
    (l : List (α × β)) (k : α) (v : β) : alookup (aset l k v) k = some v := by
  induction l with
  | nil => simp [aset, alookup]
  | cons kv rest ih =>
    by_cases h : kv.1 = k
    · simp [aset, h, alookup]
    · simp [aset, h, alookup, ih]

theorem alookup_aset_ne {α β : Type} [DecidableEq α]
    (l : List (α × β)) (k k2 : α) (v : β) (hne : k ≠ k2) :
    alookup (aset l k v) k2 = alookup l k2 := by
  induction l with
  | nil => simp [aset, alookup, hne]
  | cons kv rest ih =>
    by_cases h : kv.1 = k
    · simp [aset, h, alookup, hne]
    · by_cases h2 : kv.1 = k2
      · simp [aset, h, alookup, h2, Ne.symm hne]
      · simp [aset, h, alookup, h2, ih]

theorem aset_of_keys_ne {α β : Type} [DecidableEq α]
    (l : List (α × β)) (k : α) (v : β) (h : ∀ kv ∈ l, kv.1 ≠ k) :
    aset l k v = l ++ [(k, v)] := by
  induction l with
  | nil => simp [aset]
  | cons kv rest ih =>
    have hk : kv.1 ≠ k := h kv (by simp)
    simp only [aset, if_neg hk, List.cons_append, List.cons.injEq, true_and]
    exact ih (fun kv2 h2 => h kv2 (by simp [h2]))

theorem alookup_map_mk_of_mem {α β : Type} [DecidableEq α]
    (l : List α) (g : α → β) (x : α) (hx : x ∈ l) :
    alookup (l.map (fun d => (d, g d))) x = some (g x) := by
  induction l with
  | nil => simp at hx
  | cons d rest ih =>
    by_cases h : d = x
    · subst h; simp [alookup]
    · simp only [List.map_cons, alookup, if_neg h]
      exact ih (by rcases List.mem_cons.mp hx with h' | h' <;> [exact absurd h'.symm h; exact h'])

theorem alookup_map_mk_of_not_mem {α β : Type} [DecidableEq α]
    (l : List α) (g : α → β) (x : α) (hx : x ∉ l) :
    alookup (l.map (fun d => (d, g d))) x = none := by
  induction l with
  | nil => simp [alookup]
  | cons d rest ih =>
    have hd : d ≠ x := fun h => hx (h ▸ List.mem_cons_self d rest)
    simp only [List.map_cons, alookup, if_neg hd]
    exact ih (fun h => hx (List.mem_cons_of_mem d h))

theorem aset_map_mk {α β : Type} [DecidableEq α]
    (l : List α) (g : α → β) (x : α) (v : β) (hnd : l.Nodup) (hx : x ∈ l) :
    aset (l.map (fun d => (d, g d))) x v =
      l.map (fun d => (d, if d = x then v else g d)) := by
  induction l with
  | nil => simp at hx
  | cons d rest ih =>
    rcases List.nodup_cons.mp hnd with ⟨hdr, hrest⟩
    by_cases h : d = x
    · subst h
      have hset : aset ((d, g d) :: rest.map (fun q => (q, g q))) d v
          = (d, v) :: rest.map (fun q => (q, g q)) := by simp [aset]
      rw [List.map_cons, hset, List.map_cons, if_pos rfl]
      congr 1
      refine (List.map_congr_left ?_).symm
      intro q hq
      have hqd : q ≠ d := fun he => hdr (he ▸ hq)
      simp [hqd]
    · have hx' : x ∈ rest := by
        rcases List.mem_cons.mp hx with h' | h' <;> [exact absurd h'.symm h; exact h']
      simp only [List.map_cons, aset, if_neg h, if_neg h]
      rw [ih hrest hx']

/-- One step of the first-occurrence digest accumulation. -/
def dfoStep (fs : FS) (acc : List String) (p : FPath) : List String :=
  if fs.digest p ∈ acc then acc else acc ++ [fs.digest p]

/-- The distinct digests of a file list, in order of first occurrence — the
key set of a fully hashed size bucket. -/
def digestsFO (fs : FS) (files : List FPath) : List String :=
  files.foldl (dfoStep fs) []

theorem digestsFO_append (fs : FS) (files : List FPath) (p : FPath) :
    digestsFO fs (files ++ [p]) =
      if fs.digest p ∈ digestsFO fs files then digestsFO fs files
      else digestsFO fs files ++ [fs.digest p] := by
  simp [digestsFO, List.foldl_append, dfoStep]

theorem dfo_sub (fs : FS) (files : List FPath) (acc : List String) (x : String)
    (hx : x ∈ acc) : x ∈ files.foldl (dfoStep fs) acc := by
  induction files generalizing acc with
  | nil => simpa using hx
  | cons q rest ih =>
    refine ih (dfoStep fs acc q) ?_
    by_cases h : fs.digest q ∈ acc <;> simp [dfoStep, h, hx]

theorem dfo_mem_of (fs : FS) (files : List FPath) (acc : List String) (q : FPath)
    (hq : q ∈ files) : fs.digest q ∈ files.foldl (dfoStep fs) acc := by
  induction files generalizing acc with
  | nil => simp at hq
  | cons r rest ih =>
    rcases List.mem_cons.mp hq with h | h
    · subst h
      refine dfo_sub fs rest (dfoStep fs acc q) (fs.digest q) ?_
      by_cases hm : fs.digest q ∈ acc <;> simp [dfoStep, hm]
    · exact ih (dfoStep fs acc r) h

theorem dfo_inv (fs : FS) (files : List FPath) (acc : List String) (x : String)
    (hx : x ∈ files.foldl (dfoStep fs) acc) :
    x ∈ acc ∨ ∃ q, q ∈ files ∧ fs.digest q = x := by
  induction files generalizing acc with
  | nil => exact Or.inl (by simpa using hx)
  | cons r rest ih =>
    rcases ih (dfoStep fs acc r) hx with h | h
    · by_cases hm : fs.digest r ∈ acc
      · simp only [dfoStep, if_pos hm] at h
        exact Or.inl h
      · simp only [dfoStep, if_neg hm, List.mem_append, List.mem_singleton] at h
        rcases h with h | h
        · exact Or.inl h
        · exact Or.inr ⟨r, by simp, h.symm⟩
    · rcases h with ⟨q, hq, he⟩
      exact Or.inr ⟨q, List.mem_cons_of_mem r hq, he⟩

theorem mem_digestsFO_of_mem (fs : FS) (files : List FPath) (q : FPath)
    (hq : q ∈ files) : fs.digest q ∈ digestsFO fs files :=
  dfo_mem_of fs files [] q hq

theorem exists_of_mem_digestsFO (fs : FS) (files : List FPath) (x : String)
    (hx : x ∈ digestsFO fs files) : ∃ q, q ∈ files ∧ fs.digest q = x := by
  rcases dfo_inv fs files [] x hx with h | h
  · simp at h
  · exact h

theorem dfo_nodup (fs : FS) (files : List FPath) (acc : List String)
    (hacc : acc.Nodup) : (files.foldl (dfoStep fs) acc).Nodup := by
  induction files generalizing acc with
  | nil => simpa using hacc
  | cons r rest ih =>
    refine ih (dfoStep fs acc r) ?_
    by_cases hm : fs.digest r ∈ acc
    · simpa [dfoStep, hm] using hacc
    · simpa [dfoStep, hm] using List.nodup_append.mpr ⟨hacc, by simp, by simp [hm]⟩

theorem digestsFO_nodup (fs : FS) (files : List FPath) :
    (digestsFO fs files).Nodup :=
  dfo_nodup fs files [] List.nodup_nil

/-- The fully hashed form of a size bucket whose member list (in discovery
order) is `files`: one binding per distinct digest, in first-occurrence
order, each carrying the members with that digest in discovery order. -/
def grouped (fs : FS) (files : List FPath) : Bucket :=
  (digestsFO fs files).map
    (fun d => (d, files.filter (fun q => fs.digest q == d)))

/-- The bucket `traverse` has built for a size once its member list (in
discovery order) is `files`: the unhashed sentinel while the bucket holds a
single file, the fully hashed form afterwards. -/
def specBucket (fs : FS) (files : List FPath) : Bucket :=
  match files with
  | [] => []
  | [p] => [("", [p])]
  | p :: q :: rest => grouped fs (p :: q :: rest)

theorem specBucket_ge2 (fs : FS) (files : List FPath)
    (h : 2 ≤ files.length) : specBucket fs files = grouped fs files := by
  match files with
  | [] => simp at h
  | [p] => simp at h
  | p :: q :: rest => rfl

theorem specBucket_eq_nil_iff (fs : FS) (files : List FPath) :
    specBucket fs files = [] ↔ files = [] := by
  match files with
  | [] => simp [specBucket]
  | [p] => simp [specBucket]
  | p :: q :: rest =>
    simp only [specBucket, grouped]
    constructor
    · intro h
      have : fs.digest p ∈ digestsFO fs (p :: q :: rest) :=
        mem_digestsFO_of_mem fs _ p (by simp)
      rw [List.map_eq_nil_iff.mp h] at this
      simp at this
    · intro h; simp at h

theorem grouped_singleton (fs : FS) (p : FPath) :
    grouped fs [p] = [(fs.digest p, [p])] := by
  simp [grouped, digestsFO, dfoStep]

theorem filter_digest_eq_nil (fs : FS) (F : List FPath) (d : String)
    (h : d ∉ digestsFO fs F) :
    F.filter (fun q => fs.digest q == d) = [] := by
  rw [List.filter_eq_nil_iff]
  intro q hq
  simp only [beq_iff_eq]
  intro he
  exact h (he ▸ mem_digestsFO_of_mem fs F q hq)

theorem insertHashed_ok (fs : FS) (b : Bucket) (p : FPath)
    (hp : fs.canOpen p = true) :
    insertHashed fs b p =
      (aset b (fs.digest p) (((alookup b (fs.digest p)).getD []) ++ [p]),
       [p], none) := by
  simp [insertHashed, fhash, hp]

theorem insertHashed_grouped (fs : FS) (F : List FPath) (p : FPath)
    (hp : fs.canOpen p = true) :
    insertHashed fs (grouped fs F) p = (grouped fs (F ++ [p]), [p], none) := by
  rw [insertHashed_ok fs _ p hp]
  by_cases hm : fs.digest p ∈ digestsFO fs F
  · rw [show grouped fs F =
        (digestsFO fs F).map
          (fun d => (d, F.filter (fun q => fs.digest q == d))) from rfl]
    rw [alookup_map_mk_of_mem (digestsFO fs F)
      (fun d => F.filter (fun q => fs.digest q == d)) (fs.digest p) hm,
      Option.getD_some]
    rw [aset_map_mk (digestsFO fs F)
      (fun d => F.filter (fun q => fs.digest q == d)) (fs.digest p) _
      (digestsFO_nodup fs F) hm]
    unfold grouped
    rw [digestsFO_append, if_pos hm]
    refine congrArg (fun b => (b, ([p] : List FPath), (none : Option String))) ?_
    refine List.map_congr_left ?_
    intro d hd
    by_cases hdp : d = fs.digest p
    · subst hdp
      simp [List.filter_append]
    · simp [List.filter_append, hdp, Ne.symm hdp]
  · rw [show grouped fs F =
        (digestsFO fs F).map
          (fun d => (d, F.filter (fun q => fs.digest q == d))) from rfl]
    rw [alookup_map_mk_of_not_mem (digestsFO fs F)
      (fun d => F.filter (fun q => fs.digest q == d)) (fs.digest p) hm]
    have hkeys : ∀ kv ∈ (digestsFO fs F).map
        (fun d => (d, F.filter (fun q => fs.digest q == d))),
        kv.1 ≠ fs.digest p := by
      intro kv hkv
      rcases List.mem_map.mp hkv with ⟨d, hd, rfl⟩
      exact fun he => hm (he ▸ hd)
    rw [Option.getD_none, List.nil_append, aset_of_keys_ne _ _ _ hkeys]
    unfold grouped
    rw [digestsFO_append, if_neg hm, List.map_append]
    refine congrArg (fun b => (b, ([p] : List FPath), (none : Option String))) ?_
    refine congrArg₂ (· ++ ·) ?_ ?_
    · refine List.map_congr_left ?_
      intro d hd
      have hdp : fs.digest p ≠ d := fun he => hm (he ▸ hd)
      simp [List.filter_append, hdp]
    · simp [List.filter_append, filter_digest_eq_nil fs F _ hm]

theorem rekeyed_of_len_ne_one (fs : FS) (b : Bucket) (h : b.length ≠ 1) :
    rekeyed fs b = (b, [], none) := by
  match b with
  | [] => rfl
  | [x] => simp at h
  | x :: y :: t => rfl

theorem rekeyed_sentinel (fs : FS) (p : FPath) (h0 : String)
    (hp : fs.canOpen p = true) :
    rekeyed fs [(h0, [p])] = ([(fs.digest p, [p])], [p], none) := by
  simp [rekeyed, fhash, hp]

theorem rekeyed_grouped_single (fs : FS) (F : List FPath)
    (hne : F ≠ []) (hop : ∀ q ∈ F, fs.canOpen q = true)
    (hlen : (digestsFO fs F).length = 1) :
    ∃ hs, rekeyed fs (grouped fs F) = (grouped fs F, hs, none) := by
  rcases List.length_eq_one.mp hlen with ⟨d0, hd0⟩
  have hall : ∀ q ∈ F, fs.digest q = d0 := by
    intro q hq
    have hm := mem_digestsFO_of_mem fs F q hq
    rw [hd0] at hm
    simpa using hm
  have hfil : F.filter (fun q => fs.digest q == d0) = F :=
    List.filter_eq_self.mpr (fun q hq => by simp [hall q hq])
  have hgr : grouped fs F = [(d0, F)] := by
    unfold grouped
    rw [hd0]
    simp [hfil]
  obtain ⟨q0, F', rfl⟩ : ∃ q0 F', F = q0 :: F' := by
    cases F with
    | nil => exact absurd rfl hne
    | cons a l => exact ⟨a, l, rfl⟩
  refine ⟨[q0], ?_⟩
  rw [hgr]
  have hq0 : fs.digest q0 = d0 := hall q0 (by simp)
  simp [rekeyed, fhash, hop q0 (by simp), hq0]

theorem rekeyed_specBucket (fs : FS) (F : List FPath) (hne : F ≠ [])
    (hop : ∀ q ∈ F, fs.canOpen q = true) :
    ∃ hs, rekeyed fs (specBucket fs F) = (grouped fs F, hs, none) := by
  match F, hne with
  | [p], _ =>
    refine ⟨[p], ?_⟩
    rw [show specBucket fs [p] = [("", [p])] from rfl,
      rekeyed_sentinel fs p "" (hop p (by simp)), grouped_singleton]
  | p :: q :: rest, _ =>
    rw [specBucket_ge2 fs _ (by simp)]
    by_cases hlen : (digestsFO fs (p :: q :: rest)).length = 1
    · exact rekeyed_grouped_single fs _ (by simp) hop hlen
    · refine ⟨[], ?_⟩
      rw [rekeyed_of_len_ne_one fs _ (by simpa [grouped] using hlen)]

/-- The files of `done` (the paths processed so far, in discovery order)
whose reported size is `s`. -/
def sizedFiles (fs : FS) (done : List FPath) (s : Nat) : List FPath :=
  done.filter (fun p => fsize fs p == s)

/-- The build-map invariant: after `traverse` has processed the files of
`done`, there is no bucket for size 0 and the bucket of every other size is
exactly `specBucket` of the discovered files of that size. -/
def mapSpec (fs : FS) (done : List FPath) (m : TMap) : Prop :=
  alookup m 0 = none ∧
  ∀ s, s ≠ 0 → (alookup m s).getD [] = specBucket fs (sizedFiles fs done s)

theorem mapSpec_nil (fs : FS) : mapSpec fs [] [] := by
  constructor
  · rfl
  · intro s _
    rfl

theorem processFile_spec (fs : FS) (st : BuildSt) (p : FPath)
    (done : List FPath) (hp : fs.canOpen p = true)
    (hdone : ∀ q ∈ done, fs.canOpen q = true)
    (hinv : mapSpec fs done st.map) :
    ∃ st2, processFile fs st p = (st2, none) ∧
      mapSpec fs (done ++ [p]) st2.map := by
  obtain ⟨h0, hbuck⟩ := hinv
  by_cases hz : fsize fs p = 0
  · refine ⟨st, by simp [processFile, hz], h0, ?_⟩
    intro s hs
    rw [hbuck s hs]
    have : sizedFiles fs (done ++ [p]) s = sizedFiles fs done s := by
      simp [sizedFiles, List.filter_append, hz, Ne.symm hs]
    rw [this]
  · have hbs := hbuck (fsize fs p) hz
    have hFp : sizedFiles fs (done ++ [p]) (fsize fs p) =
        sizedFiles fs done (fsize fs p) ++ [p] := by
      simp [sizedFiles, List.filter_append]
    have hother : ∀ s', s' ≠ fsize fs p →
        sizedFiles fs (done ++ [p]) s' = sizedFiles fs done s' := by
      intro s' h
      simp [sizedFiles, List.filter_append, Ne.symm h]
    cases hbv : (alookup st.map (fsize fs p)).getD [] with
    | nil =>
      have hFnil : sizedFiles fs done (fsize fs p) = [] := by
        refine (specBucket_eq_nil_iff fs _).mp ?_
        rw [← hbs, hbv]
      refine ⟨{ st with map := aset st.map (fsize fs p) [("", [p])] }, ?_, ?_, ?_⟩
      · simp only [processFile, if_neg hz, hbv]
      · rw [alookup_aset_ne st.map (fsize fs p) 0 _ hz, h0]
      · intro s hs
        by_cases hss : s = fsize fs p
        · subst hss
          rw [alookup_aset_self, Option.getD_some, hFp, hFnil]
          rfl
        · rw [alookup_aset_ne st.map (fsize fs p) s _ (fun h => hss h.symm),
            hother s hss, hbuck s hs]
    | cons b bs =>
      have hFne : sizedFiles fs done (fsize fs p) ≠ [] := by
        intro h
        have : specBucket fs (sizedFiles fs done (fsize fs p)) = [] := by
          rw [h]
          rfl
        rw [← hbs, hbv] at this
        simp at this
      have hopF : ∀ q ∈ sizedFiles fs done (fsize fs p), fs.canOpen q = true :=
        fun q hq => hdone q (List.mem_of_mem_filter hq)
      obtain ⟨hs1, hrk⟩ :=
        rekeyed_specBucket fs (sizedFiles fs done (fsize fs p)) hFne hopF
      have hbsp : b :: bs = specBucket fs (sizedFiles fs done (fsize fs p)) :=
        hbv.symm.trans hbs
      have hlen2 : 2 ≤ (sizedFiles fs done (fsize fs p) ++ [p]).length := by
        cases hfl : sizedFiles fs done (fsize fs p) with
        | nil => exact absurd hfl hFne
        | cons a l => simp
      refine ⟨{ map := aset st.map (fsize fs p)
                  (specBucket fs (sizedFiles fs done (fsize fs p) ++ [p])),
                hashed := st.hashed ++ (hs1 ++ [p]) }, ?_, ?_, ?_⟩
      · have hrk2 : rekeyed fs (b :: bs) =
            (grouped fs (sizedFiles fs done (fsize fs p)), hs1, none) := by
          rw [hbsp]
          exact hrk
        have hsg : specBucket fs (sizedFiles fs done (fsize fs p) ++ [p]) =
            grouped fs (sizedFiles fs done (fsize fs p) ++ [p]) :=
          specBucket_ge2 fs _ hlen2
        simp only [processFile, if_neg hz, hbv, hrk2,
          insertHashed_grouped fs _ p hp, hsg]
      · rw [alookup_aset_ne st.map (fsize fs p) 0 _ hz, h0]
      · intro s hs
        by_cases hss : s = fsize fs p
        · subst hss
          rw [alookup_aset_self, Option.getD_some, hFp]
        · rw [alookup_aset_ne st.map (fsize fs p) s _ (fun h => hss h.symm),
            hother s hss, hbuck s hs]

theorem traverse_cons_file (fs : FS) (p : FPath) (rest : List Ev)
    (st : BuildSt) :
    traverse fs (Ev.file p :: rest) st =
      match processFile fs st p with
      | (st', none) => traverse fs rest st'
      | (st', some e) => (st', some e) := rfl

theorem buildPhase_cons (fs : FS) (root : List Ev) (rest : List (List Ev))
    (st : BuildSt) :
    buildPhase fs (root :: rest) st =
      match traverse fs root st with
      | (st', none) => buildPhase fs rest st'
      | (st', some e) => (st', some e) := rfl

theorem cleanEvs_open (fs : FS) (evs : List Ev) (h : cleanEvs fs evs = true) :
    ∀ p ∈ filesOfEvs evs, fs.canOpen p = true := by
  intro p hp
  rcases List.mem_filterMap.mp hp with ⟨e, he, hpe⟩
  have := List.all_eq_true.mp h e he
  cases e with
  | file q =>
    simp only [Option.some.injEq] at hpe
    subst hpe
    exact this
  | fail m => simp at hpe

theorem traverse_spec (fs : FS) (evs : List Ev) (st : BuildSt)
    (done : List FPath) (hclean : cleanEvs fs evs = true)
    (hdone : ∀ q ∈ done, fs.canOpen q = true)
    (hinv : mapSpec fs done st.map) :
    ∃ st2, traverse fs evs st = (st2, none) ∧
      mapSpec fs (done ++ filesOfEvs evs) st2.map := by
  induction evs generalizing st done with
  | nil => exact ⟨st, rfl, by simpa [filesOfEvs] using hinv⟩
  | cons e rest ih =>
    cases e with
    | file p =>
      have hp : fs.canOpen p = true := by
        have := List.all_eq_true.mp hclean (Ev.file p) (by simp)
        simpa using this
      have hrest : cleanEvs fs rest = true := by
        rw [cleanEvs] at hclean ⊢
        exact List.all_eq_true.mpr
          (fun e he => List.all_eq_true.mp hclean e (by simp [he]))
      obtain ⟨st2, heq, hinv2⟩ := processFile_spec fs st p done hp hdone hinv
      have hdone2 : ∀ q ∈ done ++ [p], fs.canOpen q = true := by
        intro q hq
        rcases List.mem_append.mp hq with h | h
        · exact hdone q h
        · simp only [List.mem_singleton] at h
          subst h
          exact hp
      obtain ⟨st3, heq3, hinv3⟩ := ih st2 (done ++ [p]) hrest hdone2 hinv2
      refine ⟨st3, ?_, ?_⟩
      · rw [traverse_cons_file fs p rest st, heq]
        exact heq3
      · simpa [filesOfEvs, List.append_assoc] using hinv3
    | fail m => simp [cleanEvs] at hclean

theorem buildPhase_spec (fs : FS) (roots : List (List Ev)) (st : BuildSt)
    (done : List FPath) (hclean : cleanRoots fs roots = true)
    (hdone : ∀ q ∈ done, fs.canOpen q = true)
    (hinv : mapSpec fs done st.map) :
    ∃ st2, buildPhase fs roots st = (st2, none) ∧
      mapSpec fs (done ++ filesOfRoots roots) st2.map := by
  induction roots generalizing st done with
  | nil => exact ⟨st, rfl, by simpa [filesOfRoots] using hinv⟩
  | cons root rest ih =>
    have hr : cleanEvs fs root = true :=
      List.all_eq_true.mp hclean root (by simp)
    have hrest : cleanRoots fs rest = true := by
      rw [cleanRoots] at hclean ⊢
      exact List.all_eq_true.mpr
        (fun r hrm => List.all_eq_true.mp hclean r (by simp [hrm]))
    obtain ⟨st2, heq, hinv2⟩ := traverse_spec fs root st done hr hdone hinv
    have hdone2 : ∀ q ∈ done ++ filesOfEvs root, fs.canOpen q = true := by
      intro q hq
      rcases List.mem_append.mp hq with h | h
      · exact hdone q h
      · exact cleanEvs_open fs root hr q h
    obtain ⟨st3, heq3, hinv3⟩ := ih st2 (done ++ filesOfEvs root) hrest hdone2 hinv2
    refine ⟨st3, ?_, ?_⟩
    · rw [buildPhase_cons fs root rest st, heq]
      exact heq3
    · simpa [filesOfRoots, List.append_assoc] using hinv3

theorem filesOfRoots_open (fs : FS) (roots : List (List Ev))
    (hclean : cleanRoots fs roots = true) :
    ∀ p ∈ filesOfRoots roots, fs.canOpen p = true := by
  intro p hp
  rcases List.mem_flatten.mp hp with ⟨l, hl, hpl⟩
  rcases List.mem_map.mp hl with ⟨root, hroot, rfl⟩
  exact cleanEvs_open fs root (List.all_eq_true.mp hclean root hroot) p hpl

theorem option_getD_eq_some {γ : Type} (o : Option (List γ)) (v : List γ)
    (h : o.getD [] = v) (hv : v ≠ []) : o = some v := by
  cases o <;> simp_all

/-- C2: on a clean run the build phase succeeds, every member of a finalized
duplicate group (a digest binding of a size bucket with at least two files)
has exactly the byte size of its bucket and exactly the digest of its
binding, and conversely any two discovered files of equal nonzero size and
equal digest land in one and the same group list — i.e. duplicate
classification is same size and same digest. -/
theorem C2_group_same_size_same_digest (fs : FS) (roots : List (List Ev))
    (hclean : cleanRoots fs roots = true) :
    (buildPhase fs roots initSt).2 = none ∧
    (∀ s b h names p,
        alookup (buildPhase fs roots initSt).1.map s = some b →
        (h, names) ∈ b → 2 ≤ names.length → p ∈ names →
        fsize fs p = s ∧ fs.digest p = h) ∧
    (∀ p q, p ∈ filesOfRoots roots → q ∈ filesOfRoots roots →
        fsize fs p ≠ 0 → fsize fs p = fsize fs q →
        fs.digest p = fs.digest q →
        ∃ b h names,
          alookup (buildPhase fs roots initSt).1.map (fsize fs p) = some b ∧
          (h, names) ∈ b ∧ p ∈ names ∧ q ∈ names) := by
  obtain ⟨st2, heq, hinv⟩ :=
    buildPhase_spec fs roots initSt [] hclean (by simp) (mapSpec_nil fs)
  obtain ⟨h0, hbuck⟩ := hinv
  simp only [List.nil_append] at hbuck
  rw [heq]
  refine ⟨rfl, ?_, ?_⟩
  · intro s b h names p hlk hmem hlen hp
    by_cases hs0 : s = 0
    · subst hs0
      rw [h0] at hlk
      cases hlk
    · have hb2 := hbuck s hs0
      rw [hlk, Option.getD_some] at hb2
      rcases hFshape : sizedFiles fs (filesOfRoots roots) s with _ | ⟨f0, F'⟩
      · rw [hFshape] at hb2
        rw [hb2] at hmem
        simp [specBucket] at hmem
      · rcases F' with _ | ⟨f1, F''⟩
        · rw [hFshape] at hb2
          rw [hb2] at hmem
          simp only [specBucket, List.mem_singleton, Prod.mk.injEq] at hmem
          rw [hmem.2] at hlen
          simp at hlen
        · rw [hFshape] at hb2
          rw [hb2] at hmem
          simp only [specBucket, grouped, List.mem_map] at hmem
          rcases hmem with ⟨d, hd, hde⟩
          have hh : d = h := congrArg Prod.fst hde
          have hnames : names =
              (f0 :: f1 :: F'').filter (fun r => fs.digest r == d) :=
            (congrArg Prod.snd hde).symm
          rw [hnames] at hp
          obtain ⟨hpF1, hpF2⟩ := List.mem_filter.mp hp
          have hpsz : p ∈ sizedFiles fs (filesOfRoots roots) s :=
            hFshape ▸ hpF1
          have hps : fsize fs p = s := by
            have := (List.mem_filter.mp hpsz).2
            simpa using this
          refine ⟨hps, ?_⟩
          rw [← hh]
          simpa using hpF2
  · intro p q hpmem hqmem hpz hsq hdq
    have hb2 := hbuck (fsize fs p) hpz
    have hpF : p ∈ sizedFiles fs (filesOfRoots roots) (fsize fs p) :=
      List.mem_filter.mpr ⟨hpmem, by simp⟩
    have hqF : q ∈ sizedFiles fs (filesOfRoots roots) (fsize fs p) :=
      List.mem_filter.mpr ⟨hqmem, by simp [hsq.symm]⟩
    rcases hFshape : sizedFiles fs (filesOfRoots roots) (fsize fs p)
      with _ | ⟨f0, F'⟩
    · rw [hFshape] at hpF
      simp at hpF
    · rcases F' with _ | ⟨f1, F''⟩
      · rw [hFshape] at hpF hqF hb2
        have hlk : alookup st2.map (fsize fs p) = some [("", [f0])] :=
          option_getD_eq_some _ _ hb2 (by simp)
        refine ⟨[("", [f0])], "", [f0], hlk, by simp, ?_, ?_⟩
        · simpa using hpF
        · simpa using hqF
      · rw [hFshape] at hpF hqF hb2
        have hne : specBucket fs (f0 :: f1 :: F'') ≠ [] := by
          intro hX
          have hY := (specBucket_eq_nil_iff fs _).mp hX
          simp at hY
        have hlk : alookup st2.map (fsize fs p) =
            some (specBucket fs (f0 :: f1 :: F'')) :=
          option_getD_eq_some _ _ hb2 hne
        refine ⟨specBucket fs (f0 :: f1 :: F''), fs.digest p,
          (f0 :: f1 :: F'').filter (fun r => fs.digest r == fs.digest p),
          hlk, ?_, ?_, ?_⟩
        · rw [specBucket_ge2 fs _ (by simp)]
          exact List.mem_map.mpr
            ⟨fs.digest p, mem_digestsFO_of_mem fs _ p hpF, rfl⟩
        · exact List.mem_filter.mpr ⟨hpF, by simp⟩
        · exact List.mem_filter.mpr ⟨hqF, by simp [hdq]⟩

theorem traverse_nil (fs : FS) (st : BuildSt) :
    traverse fs [] st = (st, none) := rfl

theorem traverse_cons_fail (fs : FS) (m : String) (rest : List Ev)
    (st : BuildSt) : traverse fs (Ev.fail m :: rest) st = (st, some m) := rfl

theorem buildPhase_nil (fs : FS) (st : BuildSt) :
    buildPhase fs [] st = (st, none) := rfl

theorem traverse_append_err (fs : FS) (l1 l2 : List Ev) (st st1 : BuildSt)
    (m : String) (h : traverse fs l1 st = (st1, some m)) :
    traverse fs (l1 ++ l2) st = (st1, some m) := by
  induction l1 generalizing st with
  | nil =>
    rw [traverse_nil] at h
    simp at h
  | cons e rest ih =>
    cases e with
    | file p =>
      rw [traverse_cons_file] at h
      rw [List.cons_append, traverse_cons_file]
      cases hpf : processFile fs st p with
      | mk st' r =>
        rw [hpf] at h
        cases r with
        | none => exact ih st' h
        | some e2 => exact h
    | fail m2 =>
      rw [traverse_cons_fail] at h
      rw [List.cons_append, traverse_cons_fail]
      exact h

theorem buildPhase_append_ok (fs : FS) (r1 r2 : List (List Ev))
    (st st1 : BuildSt) (h : buildPhase fs r1 st = (st1, none)) :
    buildPhase fs (r1 ++ r2) st = buildPhase fs r2 st1 := by
  induction r1 generalizing st with
  | nil =>
    rw [buildPhase_nil] at h
    obtain rfl : st = st1 := congrArg Prod.fst h
    rfl
  | cons root rest ih =>
    rw [buildPhase_cons] at h
    rw [List.cons_append, buildPhase_cons]
    cases htr : traverse fs root st with
    | mk st' r =>
      rw [htr] at h
      cases r with
      | none => exact ih st' h
      | some e2 =>
        exact absurd (show (st', some e2) = (st1, none) from h) (by simp)

theorem buildPhase_cons_err (fs : FS) (root : List Ev)
    (rest : List (List Ev)) (st st1 : BuildSt) (m : String)
    (h : traverse fs root st = (st1, some m)) :
    buildPhase fs (root :: rest) st = (st1, some m) := by
  rw [buildPhase_cons, h]

/-- A filesystem where every path opens, has size 10 and digest "d" — so
every discovered file is a byte-identical duplicate of every other. -/
def fsIdent : FS := ⟨fun _ => true, fun _ => 10, fun _ => "d"⟩

/-- C1 (counter-evidence): the claim says the content hash of each file is
computed at most once per build.  On three discovered files of one size
whose first two share a digest, the build hashes the first file twice: the
`count == 1` rekeying branch fires again when the third file arrives,
because the bucket then holds a single (already hashed) key; the hash-call
trace is a, b, a, c. -/
theorem C1_first_file_hashed_twice :
    (buildPhase fsIdent [[Ev.file "a", Ev.file "b", Ev.file "c"]]
        initSt).1.hashed = ["a", "b", "a", "c"] ∧
    ((buildPhase fsIdent [[Ev.file "a", Ev.file "b", Ev.file "c"]]
        initSt).1.hashed.count "a") = 2 := by
  decide

/-- C3 (counterexample): the claim says a failed subtree aborts only that
subtree and the build continues with the remaining roots.  With a first
root that fails and a second root holding the regular file "a" of nonzero
size, the build stops at the failure: the final map has no bucket for the
size of "a", so the second root was never traversed. -/
theorem C3_counterexample :
    buildPhase fsIdent [[Ev.fail "boom"], [Ev.file "a"]] initSt
        = (initSt, some "boom") ∧
    alookup (buildPhase fsIdent [[Ev.fail "boom"], [Ev.file "a"]]
        initSt).1.map (fsize fsIdent "a") = none ∧
    fsize fsIdent "a" ≠ 0 := by
  decide

/-- C3 (amended): a build-phase exception does not abort just the failing
subtree: it propagates out of the whole `traverse` recursion and the single
handler in `main` wraps the whole root loop, so the rest of the failing
root's walk and all remaining roots are skipped; the run then continues
into the mutation phase on the partial map exactly as if the skipped
inputs were absent, and one warning is recorded. -/
theorem C3_build_failure_aborts_whole_build
    (fs : FS) (cfg : Config) (o : MutOracle)
    (roots1 rest : List (List Ev)) (evs extra : List Ev)
    (st1 st2 : BuildSt) (m : String)
    (h1 : buildPhase fs roots1 initSt = (st1, none))
    (h2 : traverse fs evs st1 = (st2, some m)) :
    buildPhase fs (roots1 ++ (evs ++ extra) :: rest) initSt = (st2, some m) ∧
    runMain fs cfg (roots1 ++ (evs ++ extra) :: rest) o =
      runMain fs cfg (roots1 ++ [evs]) o ∧
    (runMain fs cfg (roots1 ++ (evs ++ extra) :: rest) o).warned = true := by
  have hA : buildPhase fs (roots1 ++ (evs ++ extra) :: rest) initSt
      = (st2, some m) := by
    rw [buildPhase_append_ok fs roots1 _ initSt st1 h1]
    exact buildPhase_cons_err fs _ rest st1 st2 m
      (traverse_append_err fs evs extra st1 st2 m h2)
  have hB : buildPhase fs (roots1 ++ [evs]) initSt = (st2, some m) := by
    rw [buildPhase_append_ok fs roots1 _ initSt st1 h1]
    exact buildPhase_cons_err fs _ [] st1 st2 m h2
  refine ⟨hA, ?_, ?_⟩
  · simp only [runMain, hA, hB]
  · simp only [runMain, hA]
    rfl

/-- C3 (amended, witness): the concrete instance of the abort behaviour on
a failing first root followed by a root with one regular file. -/
theorem C3_amended_witness :
    buildPhase fsIdent ([] ++ ([Ev.fail "x"] ++ [Ev.file "b"]) :: [[Ev.file "a"]])
        initSt = (initSt, some "x") ∧
    runMain fsIdent ⟨false, false, false⟩
        ([] ++ ([Ev.fail "x"] ++ [Ev.file "b"]) :: [[Ev.file "a"]])
        ⟨fun _ => none, fun _ => true, fun _ _ => true, fun _ => true,
          fun _ => "", fun _ => false, fun _ => false⟩ =
      runMain fsIdent ⟨false, false, false⟩ ([] ++ [[Ev.fail "x"]])
        ⟨fun _ => none, fun _ => true, fun _ _ => true, fun _ => true,
          fun _ => "", fun _ => false, fun _ => false⟩ ∧
    (runMain fsIdent ⟨false, false, false⟩
        ([] ++ ([Ev.fail "x"] ++ [Ev.file "b"]) :: [[Ev.file "a"]])
        ⟨fun _ => none, fun _ => true, fun _ _ => true, fun _ => true,
          fun _ => "", fun _ => false, fun _ => false⟩).warned = true :=
  C3_build_failure_aborts_whole_build fsIdent ⟨false, false, false⟩
    ⟨fun _ => none, fun _ => true, fun _ _ => true, fun _ => true,
      fun _ => "", fun _ => false, fun _ => false⟩
    [] [[Ev.file "a"]] [Ev.fail "x"] [Ev.file "b"] initSt initSt "x"
    (by decide) (by decide)

/-- A filesystem where no path can be opened. -/
def fsClosed : FS := ⟨fun _ => false, fun _ => 0, fun _ => ""⟩

/-- C10: for a regular file whose stream cannot be opened, `fsize` returns
the `size_t` conversion of `tellg`'s failure value `-1`, i.e. `2 ^ 64 - 1`;
being nonzero, the file passes the size-0 discard and is inserted (under
the unhashed sentinel) into the bucket for size `2 ^ 64 - 1` as a dedup
candidate instead of being skipped. -/
theorem C10_unopenable_file_size_max (fs : FS) (st : BuildSt) (p : FPath)
    (hopen : fs.canOpen p = false)
    (hnew : alookup st.map size_t_max = none) :
    fsize fs p = 2 ^ 64 - 1 ∧ fsize fs p ≠ 0 ∧
    processFile fs st p =
      ({ st with map := aset st.map size_t_max [("", [p])] }, none) := by
  have h1 : fsize fs p = size_t_max := by simp [fsize, hopen]
  have h2 : size_t_max ≠ 0 := by decide
  refine ⟨h1, by rw [h1]; exact h2, ?_⟩
  simp only [processFile, h1, if_neg h2, hnew, Option.getD_none]

/-- C10 (witness): the concrete instance on the closed filesystem. -/
theorem C10_witness :
    fsize fsClosed "f" = 2 ^ 64 - 1 ∧ fsize fsClosed "f" ≠ 0 ∧
    processFile fsClosed initSt "f" =
      ({ initSt with map := aset initSt.map size_t_max [("", ["f"])] },
       none) :=
  C10_unopenable_file_size_max fsClosed initSt "f" rfl rfl

/-- C2 (witness): on two identical discovered files the completeness half
of the claim produces their common group. -/
theorem C2_witness :
    ∃ b h names,
      alookup (buildPhase fsIdent [[Ev.file "a", Ev.file "b"]]
          initSt).1.map (fsize fsIdent "a") = some b ∧
      (h, names) ∈ b ∧ "a" ∈ names ∧ "b" ∈ names :=
  (C2_group_same_size_same_digest fsIdent [[Ev.file "a", Ev.file "b"]]
      (by decide)).2.2 "a" "b" (by decide) (by decide) (by decide)
    (by decide) (by decide)

/-- C4: the attribute comparator returns true exactly when both stats
succeed and owner id, group id, mode bits and containing device all agree;
a failed stat on either path yields false rather than an exception; and a
pair on which it returns false is reported exactly once (one mismatch line)
while triggering no mutation and no error. -/
theorem C4_attribute_comparator (o : MutOracle) (a b : FPath)
    (cfg : Config) (s : Nat) :
    (compare_file_attributes o a b = true ↔
      ∃ s1 s2, o.stat a = some s1 ∧ o.stat b = some s2 ∧
        s1.uid = s2.uid ∧ s1.gid = s2.gid ∧ s1.mode = s2.mode ∧
        s1.dev = s2.dev) ∧
    ((o.stat a = none ∨ o.stat b = none) →
      compare_file_attributes o a b = false) ∧
    (compare_file_attributes o a b = false →
      processPair cfg o s a b =
        ⟨[], [Report.member b, Report.mismatch a b], 0, none⟩) := by
  refine ⟨⟨?_, ?_⟩, ?_, ?_⟩
  · intro h
    cases hsa : o.stat a with
    | none => simp [compare_file_attributes, hsa] at h
    | some s1 =>
      cases hsb : o.stat b with
      | none => simp [compare_file_attributes, hsa, hsb] at h
      | some s2 =>
        simp only [compare_file_attributes, hsa, hsb, Bool.and_eq_true,
          decide_eq_true_eq] at h
        exact ⟨s1, s2, rfl, rfl, h.1.1.1, h.1.1.2, h.1.2, h.2⟩
  · rintro ⟨s1, s2, hsa, hsb, h1, h2, h3, h4⟩
    simp [compare_file_attributes, hsa, hsb, h1, h2, h3, h4]
  · rintro (h | h)
    · simp [compare_file_attributes, h]
    · cases o.stat a <;> simp [compare_file_attributes, h]
  · intro h
    simp [processPair, h]

/-- Whether a filesystem mutation touches the directory entry or metadata
of the given path: deleting it, creating it as a link, or changing its
owner or mode.  A `createLink` mutates the link path, not its target. -/
def mutatesPath : FsAct → FPath → Bool
  | FsAct.removeFile p, q => p == q
  | FsAct.createLink _ l, q => l == q
  | FsAct.chown p _ _, q => p == q
  | FsAct.chmod p _, q => p == q
  | FsAct.removeDir d, q => d == q

/-- C8: in live hardlink mode, a matched pair with distinct paths performs
exactly: delete the duplicate, hardlink the duplicate's path to the base,
then chown and chmod the new link path to the base's owner, group and mode
(the base can be statted, since the comparator matched); no action of the
pair mutates the base path itself. -/
theorem C8_base_never_mutated (cfg : Config) (o : MutOracle) (s : Nat)
    (base file : FPath)
    (hmode : cfg.remove = false) (hlive : cfg.pretend = false)
    (hmatch : compare_file_attributes o base file = true)
    (hrm : o.removeOk file = true) (hlk : o.linkOk base file = true)
    (hne : base ≠ file) :
    ∃ bs, o.stat base = some bs ∧
      processPair cfg o s base file =
        ⟨[FsAct.removeFile file, FsAct.createLink base file,
          FsAct.chown file bs.uid bs.gid, FsAct.chmod file bs.mode],
         [Report.member file], s, none⟩ ∧
      ∀ a ∈ (processPair cfg o s base file).acts,
        mutatesPath a base = false := by
  cases hsb : o.stat base with
  | none => simp [compare_file_attributes, hsb] at hmatch
  | some bs =>
    have heq : processPair cfg o s base file =
        ⟨[FsAct.removeFile file, FsAct.createLink base file,
          FsAct.chown file bs.uid bs.gid, FsAct.chmod file bs.mode],
         [Report.member file], s, none⟩ := by
      simp [processPair, hmatch, hlive, hrm, hmode, hlk, hsb]
    refine ⟨bs, rfl, heq, ?_⟩
    rw [heq]
    intro a ha
    have hfb : (file == base) = false := by
      simp only [beq_eq_false_iff_ne]
      exact fun h => hne h.symm
    simp only [List.mem_cons, List.not_mem_nil, or_false] at ha
    rcases ha with rfl | rfl | rfl | rfl <;> simp [mutatesPath, hfb]

/-- Selects the directory-deletion mutations. -/
def isRemoveDir : FsAct → Bool
  | FsAct.removeDir _ => true
  | _ => false

/-- C9: the mutation of one duplicate pair deletes a directory exactly when
the run is live remove mode without keep, the pair matched, the duplicate
was successfully deleted, the duplicate's immediate parent is a directory
that is empty at that moment, and the rmdir call succeeds; and in that case
the one directory deleted is exactly the immediate parent — never a
grandparent, so the pruning does not recurse upward. -/
theorem C9_pruning_exactly_parent (cfg : Config) (o : MutOracle) (s : Nat)
    (base file : FPath) :
    (processPair cfg o s base file).acts.filter isRemoveDir =
      (if cfg.remove && !cfg.keep && !cfg.pretend &&
          compare_file_attributes o base file && o.removeOk file &&
          o.isDirectory (o.parent file) && o.dirEmptyAfter (o.parent file) &&
          o.rmdirOk (o.parent file)
       then [FsAct.removeDir (o.parent file)] else []) := by
  cases hc : compare_file_attributes o base file <;>
  cases hp : cfg.pretend <;>
  cases hr : cfg.remove <;>
  cases hk : cfg.keep <;>
  cases hrm : o.removeOk file <;>
  cases hd : o.isDirectory (o.parent file) <;>
  cases he : o.dirEmptyAfter (o.parent file) <;>
  cases hro : o.rmdirOk (o.parent file) <;>
  cases hlk : o.linkOk base file <;>
  cases hsb : o.stat base <;>
  simp_all [processPair, isRemoveDir]

theorem processPair_pretend (cfg : Config) (o : MutOracle) (s : Nat)
    (base file : FPath) (hp : cfg.pretend = true) :
    (processPair cfg o s base file).acts = [] ∧
    (processPair cfg o s base file).err = none ∧
    (processPair cfg o s base file).savedAdd =
      (if compare_file_attributes o base file then s else 0) := by
  cases hc : compare_file_attributes o base file <;>
    simp [processPair, hc, hp]

theorem processPair_saved_of_ok (cfg : Config) (o : MutOracle) (s : Nat)
    (base file : FPath)
    (h : (processPair cfg o s base file).err = none) :
    (processPair cfg o s base file).savedAdd =
      (if compare_file_attributes o base file then s else 0) := by
  cases hc : compare_file_attributes o base file <;>
  cases hp : cfg.pretend <;>
  cases hr : cfg.remove <;>
  cases hk : cfg.keep <;>
  cases hrm : o.removeOk file <;>
  cases hd : o.isDirectory (o.parent file) <;>
  cases he : o.dirEmptyAfter (o.parent file) <;>
  cases hro : o.rmdirOk (o.parent file) <;>
  cases hlk : o.linkOk base file <;>
  cases hsb : o.stat base <;>
  simp_all [processPair]

theorem runPairs_cons (cfg : Config) (o : MutOracle) (s : Nat) (base f : FPath)
    (rest : List FPath) :
    runPairs cfg o s base (f :: rest) =
      (match (processPair cfg o s base f).err with
       | some e =>
         ⟨(processPair cfg o s base f).acts, (processPair cfg o s base f).reps,
          (processPair cfg o s base f).savedAdd, some e⟩
       | none =>
         ⟨(processPair cfg o s base f).acts ++ (runPairs cfg o s base rest).acts,
          (processPair cfg o s base f).reps ++ (runPairs cfg o s base rest).reps,
          (processPair cfg o s base f).savedAdd +
            (runPairs cfg o s base rest).savedAdd,
          (runPairs cfg o s base rest).err⟩) := rfl

theorem runPairs_dry_live (cfg : Config) (o : MutOracle) (s : Nat)
    (base : FPath) (files : List FPath) :
    (runPairs { cfg with pretend := true } o s base files).acts = [] ∧
    (runPairs { cfg with pretend := true } o s base files).err = none ∧
    ((runPairs { cfg with pretend := false } o s base files).err = none →
      (runPairs { cfg with pretend := true } o s base files).savedAdd =
        (runPairs { cfg with pretend := false } o s base files).savedAdd) := by
  induction files with
  | nil => simp [runPairs]
  | cons f rest ih =>
    obtain ⟨hda, hde, hds⟩ :=
      processPair_pretend { cfg with pretend := true } o s base f rfl
    obtain ⟨iha, ihe, ihs⟩ := ih
    refine ⟨?_, ?_, ?_⟩
    · rw [runPairs_cons, hde]
      simp [hda, iha]
    · rw [runPairs_cons, hde]
      simp [ihe]
    · intro hlive
      rw [runPairs_cons { cfg with pretend := false }] at hlive
      cases hxe : (processPair { cfg with pretend := false } o s base f).err with
      | some e =>
        rw [hxe] at hlive
        simp at hlive
      | none =>
        rw [hxe] at hlive
        simp only [] at hlive
        rw [runPairs_cons, hde, runPairs_cons { cfg with pretend := false }, hxe]
        simp only []
        have hsx := processPair_saved_of_ok { cfg with pretend := false } o s
          base f hxe
        rw [hds, hsx, ihs hlive]

theorem runGroup_dry_live (cfg : Config) (o : MutOracle)
    (g : Nat × List FPath) :
    (runGroup { cfg with pretend := true } o g).acts = [] ∧
    (runGroup { cfg with pretend := true } o g).err = none ∧
    ((runGroup { cfg with pretend := false } o g).err = none →
      (runGroup { cfg with pretend := true } o g).savedAdd =
        (runGroup { cfg with pretend := false } o g).savedAdd) := by
  rcases g with ⟨s, names⟩
  match names with
  | [] => simp [runGroup]
  | [b] => simp [runGroup]
  | b :: f :: rest =>
    obtain ⟨h1, h2, h3⟩ := runPairs_dry_live cfg o s b (f :: rest)
    exact ⟨by simpa [runGroup] using h1, by simpa [runGroup] using h2,
      fun hl => by
        simp only [runGroup]
        exact h3 (by simpa [runGroup] using hl)⟩

theorem runGroups_cons (cfg : Config) (o : MutOracle)
    (g : Nat × List FPath) (rest : List (Nat × List FPath)) :
    runGroups cfg o (g :: rest) =
      (match (runGroup cfg o g).err with
       | some e =>
         ⟨(runGroup cfg o g).acts, (runGroup cfg o g).reps,
          (runGroup cfg o g).savedAdd, some e⟩
       | none =>
         ⟨(runGroup cfg o g).acts ++ (runGroups cfg o rest).acts,
          (runGroup cfg o g).reps ++ (runGroups cfg o rest).reps,
          (runGroup cfg o g).savedAdd + (runGroups cfg o rest).savedAdd,
          (runGroups cfg o rest).err⟩) := rfl

theorem runGroups_dry_live (cfg : Config) (o : MutOracle)
    (gs : List (Nat × List FPath)) :
    (runGroups { cfg with pretend := true } o gs).acts = [] ∧
    (runGroups { cfg with pretend := true } o gs).err = none ∧
    ((runGroups { cfg with pretend := false } o gs).err = none →
      (runGroups { cfg with pretend := true } o gs).savedAdd =
        (runGroups { cfg with pretend := false } o gs).savedAdd) := by
  induction gs with
  | nil => simp [runGroups]
  | cons g rest ih =>
    obtain ⟨hda, hde, hds⟩ := runGroup_dry_live cfg o g
    obtain ⟨iha, ihe, ihs⟩ := ih
    refine ⟨?_, ?_, ?_⟩
    · rw [runGroups_cons, hde]
      simp [hda, iha]
    · rw [runGroups_cons, hde]
      simp [ihe]
    · intro hlive
      rw [runGroups_cons { cfg with pretend := false }] at hlive
      cases hxe : (runGroup { cfg with pretend := false } o g).err with
      | some e =>
        rw [hxe] at hlive
        simp at hlive
      | none =>
        rw [hxe] at hlive
        simp only [] at hlive
        rw [runGroups_cons, hde, runGroups_cons { cfg with pretend := false },
          hxe]
        simp only []
        rw [hds hxe, ihs hlive]

/-- C5: for any input tree, oracle and flags, the dry-run (`--pretend`)
execution performs no filesystem mutation and raises no fatal error, and
whenever the corresponding live execution completes (so it reports a
total), the dry run accounts exactly the same bytes-saved total. -/
theorem C5_dry_run_same_accounting (fs : FS) (cfg : Config)
    (roots : List (List Ev)) (o : MutOracle)
    (hlive : (runMain fs { cfg with pretend := false } roots o).fatal
        = none) :
    (runMain fs { cfg with pretend := true } roots o).actions = [] ∧
    (runMain fs { cfg with pretend := true } roots o).fatal = none ∧
    (runMain fs { cfg with pretend := true } roots o).saved =
      (runMain fs { cfg with pretend := false } roots o).saved := by
  simp only [runMain] at hlive ⊢
  obtain ⟨h1, h2, h3⟩ := runGroups_dry_live cfg o
    (flattenMap (buildPhase fs roots initSt).1.map)
  exact ⟨h1, h2, h3 hlive⟩

/-- Sequencing of two mutation-phase outcomes: if the first aborted, the
second never ran; otherwise outputs accumulate and the second's error (if
any) surfaces. -/
def seqPO (x y : PairOut) : PairOut :=
  match x.err with
  | some _ => x
  | none =>
    ⟨x.acts ++ y.acts, x.reps ++ y.reps, x.savedAdd + y.savedAdd, y.err⟩

theorem runGroups_append (cfg : Config) (o : MutOracle)
    (gs1 gs2 : List (Nat × List FPath)) :
    runGroups cfg o (gs1 ++ gs2) =
      seqPO (runGroups cfg o gs1) (runGroups cfg o gs2) := by
  induction gs1 with
  | nil =>
    cases hy : runGroups cfg o gs2 with
    | mk a r v e => simp [runGroups, seqPO, hy]
  | cons g rest ih =>
    rw [List.cons_append, runGroups_cons, runGroups_cons cfg o g rest]
    cases hxe : (runGroup cfg o g).err with
    | some e => simp [seqPO]
    | none =>
      rw [ih]
      cases hae : (runGroups cfg o rest).err with
      | some e2 => simp [seqPO, hae, List.append_assoc, Nat.add_assoc]
      | none => simp [seqPO, hae, List.append_assoc, Nat.add_assoc]

theorem runGroups_cons_err (cfg : Config) (o : MutOracle)
    (g : Nat × List FPath) (rest : List (Nat × List FPath)) (e : String)
    (hy : (runGroup cfg o g).err = some e) :
    runGroups cfg o (g :: rest) =
      ⟨(runGroup cfg o g).acts, (runGroup cfg o g).reps,
       (runGroup cfg o g).savedAdd, some e⟩ := by
  rw [runGroups_cons, hy]

/-- C6: a fatal mutation error — a failed duplicate delete, a failed
hardlink creation, or a failed empty-directory delete — throws, which ends
the mutation phase at once: the groups after the failing one never run and
everything committed before the failure stays committed (no undo); the
process exit status is 0 exactly when no fatal error occurred, regardless
of build-phase warnings; and each of the three failing operations produces
the fatal error on the spot. -/
theorem C6_fatal_mutation_abort (fs : FS) (cfg : Config)
    (roots : List (List Ev)) (o : MutOracle)
    (gs1 gs2 : List (Nat × List FPath)) (g : Nat × List FPath)
    (x y : PairOut) (e : String) (s : Nat) (base file : FPath)
    (h1 : runGroups cfg o gs1 = x) (hx : x.err = none)
    (h2 : runGroup cfg o g = y) (hy : y.err = some e) :
    runGroups cfg o (gs1 ++ g :: gs2) =
      ⟨x.acts ++ y.acts, x.reps ++ y.reps, x.savedAdd + y.savedAdd,
       some e⟩ ∧
    ((runMain fs cfg roots o).exitCode = 0 ↔
      (runMain fs cfg roots o).fatal = none) ∧
    (compare_file_attributes o base file = true → cfg.pretend = false →
      o.removeOk file = false →
      (processPair cfg o s base file).err =
        some ("Cannot delete file " ++ file)) ∧
    (compare_file_attributes o base file = true → cfg.pretend = false →
      o.removeOk file = true → cfg.remove = false →
      o.linkOk base file = false →
      (processPair cfg o s base file).err =
        some ("Cannot create hardlink for " ++ base ++ " as " ++ file)) ∧
    (compare_file_attributes o base file = true → cfg.pretend = false →
      o.removeOk file = true → cfg.remove = true → cfg.keep = false →
      o.isDirectory (o.parent file) = true →
      o.dirEmptyAfter (o.parent file) = true →
      o.rmdirOk (o.parent file) = false →
      (processPair cfg o s base file).err =
        some ("Cannot delete empty directory " ++ o.parent file)) := by
  refine ⟨?_, ?_, ?_, ?_, ?_⟩
  · rw [runGroups_append, h1, runGroups_cons_err cfg o g gs2 e (by rw [h2]; exact hy)]
    rw [h2]
    simp [seqPO, hx]
  · simp only [runMain]
    cases (runGroups cfg o
        (flattenMap (buildPhase fs roots initSt).1.map)).err <;> simp
  · intro hm hp hrm
    simp [processPair, hm, hp, hrm]
  · intro hm hp hrm hr hl
    simp [processPair, hm, hp, hrm, hr, hl]
  · intro hm hp hrm hr hk hd hde hro
    simp [processPair, hm, hp, hrm, hr, hk, hd, hde, hro]

/-- A metadata oracle on which every stat call fails. -/
def oNoStat : MutOracle :=
  ⟨fun _ => none, fun _ => true, fun _ _ => true, fun _ => true,
   fun _ => "", fun _ => false, fun _ => false⟩

/-- A metadata oracle with uniform attributes on which every call
succeeds. -/
def oAllOk : MutOracle :=
  ⟨fun _ => some ⟨1, 2, 3, 4⟩, fun _ => true, fun _ _ => true, fun _ => true,
   fun _ => "", fun _ => false, fun _ => false⟩

/-- A metadata oracle with uniform attributes on which deleting the file
"f" fails. -/
def oNoRemove : MutOracle :=
  ⟨fun _ => some ⟨1, 2, 3, 4⟩, fun p => !(p == "f"), fun _ _ => true,
   fun _ => true, fun _ => "", fun _ => false, fun _ => false⟩

/-- C4 (witness): on an oracle whose stats fail the comparator mismatches
and the pair is reported once and left untouched. -/
theorem C4_witness :
    processPair ⟨false, false, false⟩ oNoStat 5 "b" "f" =
      ⟨[], [Report.member "f", Report.mismatch "b" "f"], 0, none⟩ :=
  (C4_attribute_comparator oNoStat "b" "f" ⟨false, false, false⟩ 5).2.2
    (by decide)

/-- C5 (witness): dry run versus live run on two identical files. -/
theorem C5_witness :
    (runMain fsIdent ⟨false, true, false⟩ [[Ev.file "a", Ev.file "b"]]
        oAllOk).actions = [] ∧
    (runMain fsIdent ⟨false, true, false⟩ [[Ev.file "a", Ev.file "b"]]
        oAllOk).fatal = none ∧
    (runMain fsIdent ⟨false, true, false⟩ [[Ev.file "a", Ev.file "b"]]
        oAllOk).saved =
      (runMain fsIdent ⟨false, false, false⟩ [[Ev.file "a", Ev.file "b"]]
        oAllOk).saved :=
  C5_dry_run_same_accounting fsIdent ⟨false, true, false⟩
    [[Ev.file "a", Ev.file "b"]] oAllOk (by decide)

/-- C6 (witness): one failing delete aborts the phase before the second
group runs. -/
theorem C6_witness :
    runGroups ⟨false, false, false⟩ oNoRemove
        ([] ++ (5, ["b", "f"]) :: [(7, ["u", "v"])]) =
      ⟨[] ++ [], [] ++ [Report.group "b", Report.member "f"], 0 + 0,
       some ("Cannot delete file " ++ "f")⟩ :=
  (C6_fatal_mutation_abort fsIdent ⟨false, false, false⟩ [] oNoRemove
    [] [(7, ["u", "v"])] (5, ["b", "f"])
    ⟨[], [], 0, none⟩
    ⟨[], [Report.group "b", Report.member "f"], 0,
      some ("Cannot delete file " ++ "f")⟩
    ("Cannot delete file " ++ "f") 5 "b" "f" rfl rfl (by decide) rfl).1

/-- C8 (witness): the live hardlink mutation of a matched pair on the
uniform oracle. -/
theorem C8_witness :
    processPair ⟨false, false, false⟩ oAllOk 5 "b" "f" =
      ⟨[FsAct.removeFile "f", FsAct.createLink "b" "f",
        FsAct.chown "f" 1 2, FsAct.chmod "f" 3],
       [Report.member "f"], 5, none⟩ := by
  obtain ⟨bs, h1, h2, h3⟩ := C8_base_never_mutated ⟨false, false, false⟩
    oAllOk 5 "b" "f" rfl rfl (by decide) rfl rfl (by decide)
  have h4 : (some (⟨1, 2, 3, 4⟩ : FileAttrs)) = some bs := h1
  obtain rfl : (⟨1, 2, 3, 4⟩ : FileAttrs) = bs := Option.some_inj.mp h4
  exact h2

/-- Lowercase hex digit characters, as `std::hex` prints them. -/
def hexChar : Nat → Char
  | 0 => '0' | 1 => '1' | 2 => '2' | 3 => '3' | 4 => '4' | 5 => '5'
  | 6 => '6' | 7 => '7' | 8 => '8' | 9 => '9' | 10 => 'a' | 11 => 'b'
  | 12 => 'c' | 13 => 'd' | 14 => 'e' | 15 => 'f' | _ => 'x'

/-- Value of a hex digit character (left inverse of `hexChar` below 16). -/
def hexVal : Char → Nat
  | '0' => 0 | '1' => 1 | '2' => 2 | '3' => 3 | '4' => 4 | '5' => 5
  | '6' => 6 | '7' => 7 | '8' => 8 | '9' => 9 | 'a' => 10 | 'b' => 11
  | 'c' => 12 | 'd' => 13 | 'e' => 14 | 'f' => 15 | _ => 0

theorem hexVal_hexChar : ∀ n < 16, hexVal (hexChar n) = n := by decide

/-- Fuelled hex rendering (most significant digit first, no leading
zeros; 0 prints as "0"). -/
def hexDigitsAux : Nat → Nat → List Char
  | 0, _ => []
  | fuel + 1, n =>
    if n < 16 then [hexChar n]
    else hexDigitsAux fuel (n / 16) ++ [hexChar (n % 16)]

/-- The hex rendering of a `size_t`, as `os << std::hex << size` produces
it (the fuel `n + 1` always suffices). -/
def hexDigits (n : Nat) : List Char := hexDigitsAux (n + 1) n

/-- Reads a hex digit list back as a number. -/
def fromHex (l : List Char) : Nat :=
  l.foldl (fun a c => 16 * a + hexVal c) 0

theorem fromHex_hexDigitsAux (fuel : Nat) :
    ∀ n, n < fuel → fromHex (hexDigitsAux fuel n) = n := by
  induction fuel with
  | zero => intro n h; omega
  | succ fuel ih =>
    intro n h
    by_cases h16 : n < 16
    · simp only [hexDigitsAux, if_pos h16, fromHex, List.foldl_cons,
        List.foldl_nil]
      rw [hexVal_hexChar n h16]
      omega
    · have hlt : n / 16 < fuel := by
        have h1 : n / 16 < n := Nat.div_lt_self (by omega) (by omega)
        omega
      simp only [hexDigitsAux, if_neg h16, fromHex, List.foldl_append,
        List.foldl_cons, List.foldl_nil]
      rw [show List.foldl (fun a c => 16 * a + hexVal c) 0
          (hexDigitsAux fuel (n / 16)) = fromHex (hexDigitsAux fuel (n / 16))
        from rfl]
      rw [ih (n / 16) hlt, hexVal_hexChar (n % 16) (Nat.mod_lt n (by omega))]
      omega

theorem hexDigits_inj (m n : Nat) (h : hexDigits m = hexDigits n) :
    m = n := by
  have h1 := fromHex_hexDigitsAux (m + 1) m (by omega)
  have h2 := fromHex_hexDigitsAux (n + 1) n (by omega)
  rw [hexDigits, hexDigits] at h
  rw [← h1, ← h2, h]

theorem string_data_inj (a b : String) (h : a.data = b.data) : a = b := by
  cases a with
  | mk d1 =>
    cases b with
    | mk d2 => exact congrArg String.mk (by simpa using h)

/-- The legacy grouping key (legacy traverse, hrdups.cpp lines 310-317):
the hex rendering of the size followed by the hex digest of the content,
one flat character string. -/
def legacyKey (fs : FS) (p : FPath) : List Char :=
  hexDigits (fsize fs p) ++ (fs.digest p).data

theorem legacyKey_inj (fs : FS) (p q : FPath)
    (hlp : (fs.digest p).data.length = 64)
    (hlq : (fs.digest q).data.length = 64)
    (h : legacyKey fs p = legacyKey fs q) :
    fsize fs p = fsize fs q ∧ fs.digest p = fs.digest q := by
  rw [legacyKey, legacyKey] at h
  have hlen : (hexDigits (fsize fs p)).length =
      (hexDigits (fsize fs q)).length := by
    have hh := congrArg List.length h
    simp only [List.length_append, hlp, hlq] at hh
    omega
  obtain ⟨h1, h2⟩ := List.append_inj h hlen
  exact ⟨hexDigits_inj _ _ h1, string_data_inj _ _ h2⟩

/-- The legacy global map (legacy hrdups.cpp line 267): flat key string to
(size, ordered file list). -/
abbrev LMap := List (List Char × (Nat × List FPath))

/-- The body of the legacy `traverse` for one regular non-symlink file
(legacy hrdups.cpp lines 276-322): open and size the file, skip empty
files, throw if the stream is bad, otherwise hash immediately (no
deferral) and append the path under the flat size-and-digest key,
overwriting the stored size. -/
def legacyProcessFile (fs : FS) (m : LMap) (p : FPath) :
    LMap × Option String :=
  if fsize fs p = 0 then (m, none)
  else if fs.canOpen p then
    (aset m (legacyKey fs p)
      (fsize fs p,
       (((alookup m (legacyKey fs p)).map Prod.snd).getD []) ++ [p]),
     none)
  else (m, some ("Cannot open " ++ p))

/-- The legacy `traverse` over the event sequence of its walk; exceptions
propagate and end the walk exactly as in the current version. -/
def legTraverse (fs : FS) : List Ev → LMap → LMap × Option String
  | [], m => (m, none)
  | Ev.file p :: rest, m =>
    match legacyProcessFile fs m p with
    | (m', none) => legTraverse fs rest m'
    | (m', some e) => (m', some e)
  | Ev.fail msg :: _, m => (m, some msg)

/-- The legacy build phase over the same root walks. -/
def legBuild (fs : FS) : List (List Ev) → LMap → LMap × Option String
  | [], m => (m, none)
  | root :: rest, m =>
    match legTraverse fs root m with
    | (m', none) => legBuild fs rest m'
    | (m', some e) => (m', some e)

/-- The legacy-map invariant: each key holds exactly the discovered
nonzero-size files with that key, in discovery order. -/
def legSpec (fs : FS) (done : List FPath) (m : LMap) : Prop :=
  ∀ k, ((alookup m k).map Prod.snd).getD [] =
    done.filter (fun p => !(fsize fs p == 0) && (legacyKey fs p == k))

theorem legSpec_nil (fs : FS) : legSpec fs [] [] := by
  intro k
  simp [alookup]

theorem legacyProcessFile_spec (fs : FS) (m : LMap) (p : FPath)
    (done : List FPath) (hp : fs.canOpen p = true)
    (hinv : legSpec fs done m) :
    ∃ m2, legacyProcessFile fs m p = (m2, none) ∧
      legSpec fs (done ++ [p]) m2 := by
  by_cases hz : fsize fs p = 0
  · refine ⟨m, by simp [legacyProcessFile, hz], ?_⟩
    intro k
    rw [hinv k]
    simp [List.filter_append, hz]
  · refine ⟨aset m (legacyKey fs p)
        (fsize fs p,
         (((alookup m (legacyKey fs p)).map Prod.snd).getD []) ++ [p]),
      by simp [legacyProcessFile, hz, hp], ?_⟩
    intro k
    by_cases hk : k = legacyKey fs p
    · subst hk
      rw [alookup_aset_self]
      simp only [Option.map_some', Option.getD_some]
      rw [hinv (legacyKey fs p)]
      have hzz : (fsize fs p == 0) = false := by
        simp [hz]
      simp [List.filter_append, hzz]
    · rw [alookup_aset_ne m (legacyKey fs p) k _ (fun h => hk h.symm)]
      rw [hinv k]
      have hkk : (legacyKey fs p == k) = false := by
        simp
        exact fun h => hk h.symm
      simp [List.filter_append, hkk]

theorem legTraverse_spec (fs : FS) (evs : List Ev) (m : LMap)
    (done : List FPath) (hclean : cleanEvs fs evs = true)
    (hinv : legSpec fs done m) :
    ∃ m2, legTraverse fs evs m = (m2, none) ∧
      legSpec fs (done ++ filesOfEvs evs) m2 := by
  induction evs generalizing m done with
  | nil => exact ⟨m, rfl, by simpa [filesOfEvs] using hinv⟩
  | cons e rest ih =>
    cases e with
    | file p =>
      have hp : fs.canOpen p = true := by
        have := List.all_eq_true.mp hclean (Ev.file p) (by simp)
        simpa using this
      have hrest : cleanEvs fs rest = true := by
        rw [cleanEvs] at hclean ⊢
        exact List.all_eq_true.mpr
          (fun e he => List.all_eq_true.mp hclean e (by simp [he]))
      obtain ⟨m2, heq, hinv2⟩ := legacyProcessFile_spec fs m p done hp hinv
      obtain ⟨m3, heq3, hinv3⟩ := ih m2 (done ++ [p]) hrest hinv2
      refine ⟨m3, ?_, ?_⟩
      · rw [show legTraverse fs (Ev.file p :: rest) m =
            (match legacyProcessFile fs m p with
             | (m', none) => legTraverse fs rest m'
             | (m', some e) => (m', some e)) from rfl, heq]
        exact heq3
      · simpa [filesOfEvs, List.append_assoc] using hinv3
    | fail m2 => simp [cleanEvs] at hclean

theorem legBuild_spec (fs : FS) (roots : List (List Ev)) (m : LMap)
    (done : List FPath) (hclean : cleanRoots fs roots = true)
    (hinv : legSpec fs done m) :
    ∃ m2, legBuild fs roots m = (m2, none) ∧
      legSpec fs (done ++ filesOfRoots roots) m2 := by
  induction roots generalizing m done with
  | nil => exact ⟨m, rfl, by simpa [filesOfRoots] using hinv⟩
  | cons root rest ih =>
    have hr : cleanEvs fs root = true :=
      List.all_eq_true.mp hclean root (by simp)
    have hrest : cleanRoots fs rest = true := by
      rw [cleanRoots] at hclean ⊢
      exact List.all_eq_true.mpr
        (fun r hrm => List.all_eq_true.mp hclean r (by simp [hrm]))
    obtain ⟨m2, heq, hinv2⟩ := legTraverse_spec fs root m done hr hinv
    obtain ⟨m3, heq3, hinv3⟩ := ih m2 (done ++ filesOfEvs root) hrest hinv2
    refine ⟨m3, ?_, ?_⟩
    · rw [show legBuild fs (root :: rest) m =
          (match legTraverse fs root m with
           | (m', none) => legBuild fs rest m'
           | (m', some e) => (m', some e)) from rfl, heq]
      exact heq3
    · simpa [filesOfRoots, List.append_assoc] using hinv3

/-- The member list of the group that contains `p` inside one size bucket
(the list of the unique digest binding whose files include `p`). -/
def bucketGroupOf (b : Bucket) (p : FPath) : List FPath :=
  match b.find? (fun e => decide (p ∈ e.2)) with
  | some e => e.2
  | none => []

theorem find_map_digest (fs : FS) (F : List FPath) (p : FPath) (hp : p ∈ F)
    (l : List String) (hdp : fs.digest p ∈ l) :
    ((l.map (fun d => (d, F.filter (fun q => fs.digest q == d)))).find?
        (fun e => decide (p ∈ e.2))) =
      some (fs.digest p,
        F.filter (fun q => fs.digest q == fs.digest p)) := by
  induction l with
  | nil => simp at hdp
  | cons d l' ih =>
    by_cases hd : d = fs.digest p
    · subst hd
      have hc2 : p ∈ F.filter (fun q => fs.digest q == fs.digest p) :=
        List.mem_filter.mpr ⟨hp, by simp⟩
      rw [List.map_cons, List.find?_cons]
      simp [hc2]
    · have hc2 : p ∉ F.filter (fun q => fs.digest q == d) := by
        intro hmem
        have h2 := (List.mem_filter.mp hmem).2
        simp only [beq_iff_eq] at h2
        exact hd h2.symm
      have hdp' : fs.digest p ∈ l' := by
        rcases List.mem_cons.mp hdp with h | h
        · exact absurd h.symm hd
        · exact h
      rw [List.map_cons, List.find?_cons]
      have hdec : decide (p ∈ F.filter (fun q => fs.digest q == d)) = false :=
        decide_eq_false hc2
      rw [show decide
          (p ∈ (d, F.filter (fun q => fs.digest q == d)).2) = false
        from hdec]
      exact ih hdp'

theorem bucketGroupOf_specBucket (fs : FS) (F : List FPath) (p : FPath)
    (hp : p ∈ F) :
    bucketGroupOf (specBucket fs F) p =
      F.filter (fun q => fs.digest q == fs.digest p) := by
  match F, hp with
  | [x], hp =>
    have hx : p = x := by simpa using hp
    subst hx
    simp [specBucket, bucketGroupOf, List.find?]
  | x :: y :: rest, hp =>
    rw [specBucket_ge2 fs _ (by simp)]
    unfold bucketGroupOf
    rw [show grouped fs (x :: y :: rest) =
        (digestsFO fs (x :: y :: rest)).map
          (fun d => (d, (x :: y :: rest).filter
            (fun q => fs.digest q == d))) from rfl]
    rw [find_map_digest fs _ p hp _ (mem_digestsFO_of_mem fs _ p hp)]

/-- C7: on a clean run over the same discovered walk, with 64-hex-character
digests (SHA-256), the legacy strategy — one flat key folding the hex size
into the digest string, no lazy deferral — and the current size-keyed
lazy-hash strategy put every discovered nonzero-size file into the same
member list (same members, same discovery order): both lists equal the
discovered files sharing the file's size and digest. -/
theorem C7_legacy_grouping_equivalent (fs : FS) (roots : List (List Ev))
    (hclean : cleanRoots fs roots = true)
    (hlen : ∀ q ∈ filesOfRoots roots, (fs.digest q).data.length = 64)
    (p : FPath) (hp : p ∈ filesOfRoots roots) (hz : fsize fs p ≠ 0) :
    (legBuild fs roots []).2 = none ∧
    bucketGroupOf
        ((alookup (buildPhase fs roots initSt).1.map (fsize fs p)).getD [])
        p
      = ((alookup (legBuild fs roots []).1 (legacyKey fs p)).map
          Prod.snd).getD [] := by
  obtain ⟨st2, heq, h0, hbuck⟩ :=
    buildPhase_spec fs roots initSt [] hclean (by simp) (mapSpec_nil fs)
  simp only [List.nil_append] at hbuck
  obtain ⟨m2, leq, linv⟩ :=
    legBuild_spec fs roots [] [] hclean (legSpec_nil fs)
  simp only [List.nil_append] at linv
  rw [heq, leq]
  refine ⟨rfl, ?_⟩
  rw [hbuck (fsize fs p) hz]
  have hpF : p ∈ sizedFiles fs (filesOfRoots roots) (fsize fs p) :=
    List.mem_filter.mpr ⟨hp, by simp⟩
  rw [bucketGroupOf_specBucket fs _ p hpF]
  rw [sizedFiles, List.filter_filter]
  rw [linv (legacyKey fs p)]
  refine List.filter_congr ?_
  intro q hq
  rw [Bool.eq_iff_iff]
  simp only [Bool.and_eq_true, beq_iff_eq, Bool.not_eq_true',
    beq_eq_false_iff_ne]
  constructor
  · rintro ⟨ha, hb⟩
    refine ⟨by rw [hb]; exact hz, ?_⟩
    rw [legacyKey, legacyKey, hb, ha]
  · rintro ⟨ha, hb⟩
    have hinj := legacyKey_inj fs q p (hlen q hq) (hlen p hp) hb
    exact ⟨hinj.2, hinj.1⟩

/-- A filesystem with size 10 and one shared 64-hex-character digest. -/
def fsSha : FS :=
  ⟨fun _ => true, fun _ => 10,
   fun _ => String.mk (List.replicate 64 'a')⟩

/-- C7 (witness): both strategies give the file "a" the group list of the
two identical discovered files. -/
theorem C7_witness :
    (legBuild fsSha [[Ev.file "a", Ev.file "b"]] []).2 = none ∧
    bucketGroupOf
        ((alookup (buildPhase fsSha [[Ev.file "a", Ev.file "b"]]
            initSt).1.map (fsize fsSha "a")).getD []) "a"
      = ((alookup (legBuild fsSha [[Ev.file "a", Ev.file "b"]] []).1
          (legacyKey fsSha "a")).map Prod.snd).getD [] :=
  C7_legacy_grouping_equivalent fsSha [[Ev.file "a", Ev.file "b"]]
    (by decide) (by decide) "a" (by decide) (by decide)
